import Mathlib

/-!
Shallow embedding of the ObjectSlots signal/slot dispatcher
(include/ObjectSlots/ObjectSlots.hpp, src/ObjectSlots.cpp).

Pointers are modelled as `Nat`, with `0` standing for `nullptr`.
The registry `std::map<const void*, std::vector<void*>>` is modelled as an
association list of (signal identity, slot sequence) pairs kept in
strictly increasing key order, which is how `std::map` stores and
iterates its entries.
-/

namespace ObjectSlots

/-- The three slot variants of the source: `SlotMethod` stores an owner
object pointer and a member-function bit pattern, `SlotFunction` a free
function address, `SlotLambda` its own wrapper address together with a
caller-supplied callback address. -/
inductive Slot where
  | method (object_ : Nat) (callback_ : Nat)
  | function (callback_ : Nat)
  | lambda (self : Nat) (callback_ : Nat)
deriving DecidableEq, Repr

/-- Owner identity, `Base::object()` as overridden in each variant: the owner pointer for
`SlotMethod`, `nullptr` for `SlotFunction`, the wrapper address (`this`)
for `SlotLambda`. -/
def Slot.object : Slot → Nat
  | .method o _ => o
  | .function _ => 0
  | .lambda s _ => s

/-- Callback identity, `Base::callback()` as overridden in each variant. -/
def Slot.callback : Slot → Nat
  | .method _ c => c
  | .function c => c
  | .lambda _ c => c

def Slot.isMethod : Slot → Bool
  | .method _ _ => true
  | _ => false

def Slot.isFunction : Slot → Bool
  | .function _ => true
  | _ => false

/-- One entry of `ObjectSlots::impl::SignalMap`: the slot sequence of one
signal, in insertion order (`std::vector<void*>`). -/
abbrev SlotList := List Slot

/-- The registry `ObjectSlots::impl::SignalMap`, `std::map<const void*, SlotList>`:
entries in strictly increasing key order. -/
abbrev SignalMap := List (Nat × SlotList)

/-- Lookup, `impl_->find(signal)` followed by the `!= end()` test: the slot
sequence stored under a signal identity, if present. -/
def findSignal : SignalMap → Nat → Option SlotList
  | [], _ => none
  | (k, ss) :: rest, sig => if sig = k then some ss else findSignal rest sig

/-- The slot sequence bound to a signal, `[]` when the signal is absent. -/
def lookupList (m : SignalMap) (sig : Nat) : SlotList :=
  (findSignal m sig).getD []

/-- Store, `ObjectSlots::slotStore`: `(*impl_)[signal].emplace_back(slot)` —
`std::map::operator[]` creates the entry (at its key-ordered position)
when missing, and the slot is appended at the back of the vector. -/
def slotStore : SignalMap → Nat → Slot → SignalMap
  | [], sig, s => [(sig, [s])]
  | (k, ss) :: rest, sig, s =>
    if sig < k then (sig, [s]) :: (k, ss) :: rest
    else if sig = k then (k, ss ++ [s]) :: rest
    else (k, ss) :: slotStore rest sig s

/-- Indexed access, `ObjectSlots::getSlot(signal, index)`: the i-th slot of the signal's
sequence when the signal is present and the index in range, `nullptr`
otherwise. -/
def getSlot (m : SignalMap) (sig : Nat) (index : Nat) : Option Slot :=
  match findSignal m sig with
  | some ss => if index < ss.length then ss.get? index else none
  | none => none

/-- The mode computation of `ObjectSlots::slotRemove`:
`(object!=nullptr)<<1 | (slot!=nullptr)`. -/
def matchMode (object slot : Nat) : Nat :=
  2 * (if object ≠ 0 then 1 else 0) + (if slot ≠ 0 then 1 else 0)

/-- The `switch (mode)` of `ObjectSlots::slotRemove` deciding whether one
slot is removed. -/
def slotMatches (mode : Nat) (object slot : Nat) (s : Slot) : Bool :=
  match mode with
  | 1 => s.callback == slot
  | 2 => s.object == object
  | 3 => s.callback == slot && s.object == object
  | _ => false

/-- The inner loop of `ObjectSlots::slotRemove`: erase (and destroy) every
matching slot of one signal's sequence, preserving the order of the
others. -/
def removeMatching (mode object slot : Nat) : SlotList → SlotList
  | [] => []
  | s :: rest =>
    if slotMatches mode object slot s
    then removeMatching mode object slot rest
    else s :: removeMatching mode object slot rest

/-- The outer loop of `ObjectSlots::slotRemove`: visit every signal entry,
filter its sequence, and erase the entry when its sequence has become
empty. -/
def slotRemoveLoop (mode object slot : Nat) : SignalMap → SignalMap
  | [] => []
  | (k, ss) :: rest =>
    let kept := removeMatching mode object slot ss
    if kept.isEmpty then slotRemoveLoop mode object slot rest
    else (k, kept) :: slotRemoveLoop mode object slot rest

/-- Removal, `ObjectSlots::slotRemove(object, slot)`. -/
def slotRemove (m : SignalMap) (object slot : Nat) : SignalMap :=
  slotRemoveLoop (matchMode object slot) object slot m

/-- The accessor `getSlot` returns `some` only at an index inside the signal's
sequence. -/
theorem getSlot_some_lt {m : SignalMap} {sig i : Nat} {s : Slot}
    (h : getSlot m sig i = some s) : i < (lookupList m sig).length := by
  unfold getSlot at h
  unfold lookupList
  cases hf : findSignal m sig with
  | none => rw [hf] at h; exact absurd h (by simp)
  | some ss =>
    rw [hf] at h
    simp only [Option.getD_some]
    by_cases hi : i < ss.length
    · exact hi
    · simp only [if_neg hi] at h
      exact absurd h (by simp)

/-- The sequential branch of `ObjectSlots::emit`: starting at index `i`,
`while (void* slot = getSlot(ptr, i++)) (*slot)(args...)` — each fetched
slot is invoked with the emitted arguments. The returned list is the
invocation trace: the invoked slots, in invocation order, each paired with
the arguments passed to it. -/
def emitFrom {A : Type} (args : A) (m : SignalMap) (sig : Nat) (i : Nat) :
    List (Slot × A) :=
  match h : getSlot m sig i with
  | none => []
  | some s => (s, args) :: emitFrom args m sig (i + 1)
termination_by (lookupList m sig).length - i
decreasing_by
  have := getSlot_some_lt h
  omega

/-- Emission, `ObjectSlots::emit(callback, args...)` in sequential (non-threaded)
mode: the loop starts at `i = 0`. -/
def emit {A : Type} (m : SignalMap) (sig : Nat) (args : A) : List (Slot × A) :=
  emitFrom args m sig 0

/-- The sequential branch of `ObjectSlots::emit`, with the invocation of
each slot modelled by an oracle that may raise (`Except`): the loop body
`(*slot)(args...)` either returns or propagates an exception, in which
case the loop — and `emit` itself, which has no handler — stops at once.
The result is the trace of invoked slots (the raising slot included)
together with the propagated exception, if any. -/
def emitRunFrom {E : Type} (invk : Slot → Except E Unit) (m : SignalMap)
    (sig : Nat) (i : Nat) : List Slot × Option E :=
  match h : getSlot m sig i with
  | none => ([], none)
  | some s =>
    match invk s with
    | .error e => ([s], some e)
    | .ok _ =>
      let r := emitRunFrom invk m sig (i + 1)
      (s :: r.1, r.2)
termination_by (lookupList m sig).length - i
decreasing_by
  have := getSlot_some_lt h
  omega

/-- The run `emitRunFrom` started at index 0, as `ObjectSlots::emit` does. -/
def emitRun {E : Type} (invk : Slot → Except E Unit) (m : SignalMap)
    (sig : Nat) : List Slot × Option E :=
  emitRunFrom invk m sig 0

/-- Spec-side matcher, following the specification's tri-modal table
(section 4.2) word for word: the removal predicate parameterized by
optional owner and callback. It exists only to be compared against
`slotRemove`'s mode switch in the refinement proof. -/
def specMatches (owner : Option Nat) (cb : Option Nat) (s : Slot) : Bool :=
  match owner, cb with
  | none, some c => s.callback == c
  | some o, none => s.object == o
  | some o, some c => s.callback == c && s.object == o
  | none, none => false

/-- A `void*` argument of `slotRemove` read as an optional value:
`nullptr` means "not given". -/
def optOfPtr (p : Nat) : Option Nat := if p = 0 then none else some p

/-- Spec-side removal, following the specification's description of
remove (section 4.2): filter every signal's sequence by the tri-modal
predicate and collapse entries whose sequence becomes empty. Reference
point for the refinement proof about `slotRemove`. -/
def specRemove (m : SignalMap) (object slot : Nat) : SignalMap :=
  (m.map (fun e =>
      (e.1, e.2.filter (fun s => !specMatches (optOfPtr object) (optOfPtr slot) s)))).filter
    (fun e => !e.2.isEmpty)

/-- The public mutating surface of `ObjectSlots`: the three `bind`
overloads, the unbind overloads, and `emit`. Each constructor carries the
pointer arguments of the corresponding C++ call. -/
inductive Op where
  | bindMethodOp (sig owner cb : Nat)
  | bindFunctionOp (sig cb : Nat)
  | bindLambdaOp (sig self cb : Nat)
  | unbindMethodOp (owner cb : Nat)
  | unbindFunctionOp (cb : Nat)
  | unbindOwnerOp (owner : Nat)
  | unbindAddrOp (cb : Nat)
  | emitOp (sig : Nat)
deriving DecidableEq, Repr

/-- The registry transition performed by each operation, read off the C++
bodies: `bind` overloads construct their slot variant and call
`slotStore`; `unbind` overloads call `slotRemove` with `nullptr` for the
argument they do not take; `emit` only calls the read-only `getSlot` and
invokes slots, so it leaves the registry as it is. -/
def step (m : SignalMap) : Op → SignalMap
  | .bindMethodOp sig owner cb => slotStore m sig (.method owner cb)
  | .bindFunctionOp sig cb => slotStore m sig (.function cb)
  | .bindLambdaOp sig self cb => slotStore m sig (.lambda self cb)
  | .unbindMethodOp owner cb => slotRemove m owner cb
  | .unbindFunctionOp cb => slotRemove m 0 cb
  | .unbindOwnerOp owner => slotRemove m owner 0
  | .unbindAddrOp cb => slotRemove m 0 cb
  | .emitOp _ => m

/-- A sequence of API calls applied to a registry, first call first. -/
def applyOps (m : SignalMap) : List Op → SignalMap
  | [] => m
  | op :: rest => applyOps (step m op) rest

/-- No signal entry holds an empty slot sequence. -/
def noEmptyEntry (m : SignalMap) : Prop := ∀ e ∈ m, e.2 ≠ []

instance (m : SignalMap) : Decidable (noEmptyEntry m) := by
  unfold noEmptyEntry; infer_instance

/-- The keys of the registry are pairwise distinct (`std::map` holds at
most one entry per key). -/
def keysNodup (m : SignalMap) : Prop := (m.map Prod.fst).Nodup

instance (m : SignalMap) : Decidable (keysNodup m) := by
  unfold keysNodup; infer_instance

/-- The owner-identity shape stated by the spec for the stored slot
variants: a method slot has a non-nil owner, a function slot a nil one. -/
def slotShapeOk (s : Slot) : Prop :=
  (s.isMethod = true → s.object ≠ 0) ∧ (s.isFunction = true → s.object = 0)

instance (s : Slot) : Decidable (slotShapeOk s) := by
  unfold slotShapeOk; infer_instance

/-- The operation passes a non-null owner pointer whenever it binds a
method slot. -/
def opOwnerNonNil : Op → Prop
  | .bindMethodOp _ owner _ => owner ≠ 0
  | _ => True

instance (op : Op) : Decidable (opOwnerNonNil op) := by
  unfold opOwnerNonNil; cases op <;> infer_instance

/-- The union pun `to_void_ptr` used for signal identities and for
`SlotMethod::callback()`: a pointer-to-member bit pattern written into a
union and read back as a `void*` of `wPtr` bits keeps only the low `wPtr`
bits of the pattern. -/
def toVoidPtrWord (wPtr : Nat) (bits : Nat) : Nat := bits % 2 ^ wPtr

/-- The `static_assert(sizeof(void(*)()) <= sizeof(void*))` guarding class
`Base`: it compares the width of a plain function pointer — not of a
pointer-to-member — with the width of `void*`. -/
def staticAssertFnPtrFits (wFnPtr wPtr : Nat) : Prop := wFnPtr ≤ wPtr

instance (wFnPtr wPtr : Nat) : Decidable (staticAssertFnPtrFits wFnPtr wPtr) := by
  unfold staticAssertFnPtrFits; infer_instance

/-! ### Lemmas about the removal loop -/

/-- The mode switch of `slotRemove` computes exactly the tri-modal
matcher of the specification table. -/
theorem slotMatches_matchMode (o c : Nat) (s : Slot) :
    slotMatches (matchMode o c) o c s = specMatches (optOfPtr o) (optOfPtr c) s := by
  by_cases ho : o = 0 <;> by_cases hc : c = 0 <;>
    simp [matchMode, slotMatches, specMatches, optOfPtr, ho, hc]

/-- The inner erase loop keeps exactly the non-matching slots, in
order. -/
theorem removeMatching_eq_filter (mode o c : Nat) (ss : SlotList) :
    removeMatching mode o c ss = ss.filter (fun s => !slotMatches mode o c s) := by
  induction ss with
  | nil => rfl
  | cons s rest ih =>
    by_cases hs : slotMatches mode o c s = true <;>
      simp [removeMatching, hs, ih, List.filter_cons]

/-- The outer loop of `slotRemove` is the per-entry filter followed by
collapsing empty entries. -/
theorem slotRemoveLoop_eq (mode o c : Nat) (m : SignalMap) :
    slotRemoveLoop mode o c m =
      (m.map (fun e => (e.1, e.2.filter (fun s => !slotMatches mode o c s)))).filter
        (fun e => !e.2.isEmpty) := by
  induction m with
  | nil => rfl
  | cons e rest ih =>
    obtain ⟨k, ss⟩ := e
    by_cases hk : (removeMatching mode o c ss).isEmpty = true <;>
      simp [slotRemoveLoop, hk, ih, List.filter_cons, removeMatching_eq_filter,
        ← removeMatching_eq_filter]

/-- The accessor `getSlot` agrees with optional list indexing into the signal's
sequence (out-of-range and absent-signal both give `none`). -/
theorem getSlot_eq_get? (m : SignalMap) (sig i : Nat) :
    getSlot m sig i = (lookupList m sig).get? i := by
  unfold getSlot lookupList
  cases hf : findSignal m sig with
  | none => simp
  | some ss =>
    simp only [Option.getD_some]
    by_cases hi : i < ss.length
    · rw [if_pos hi]
    · rw [if_neg hi, Eq.comm, List.get?_eq_none]
      omega

/-- The emit loop started at index `i` invokes exactly the slots from
position `i` on, in order, each with the emitted arguments. -/
theorem emitFrom_eq {A : Type} (args : A) (m : SignalMap) (sig : Nat) :
    ∀ k i, (lookupList m sig).length - i ≤ k →
      emitFrom args m sig i = ((lookupList m sig).drop i).map (fun s => (s, args)) := by
  intro k
  induction k with
  | zero =>
    intro i hi
    have hnone : getSlot m sig i = none := by
      rw [getSlot_eq_get?, List.get?_eq_none]
      omega
    rw [emitFrom]
    split
    · rw [List.drop_eq_nil_of_le (by omega)]
      rfl
    · rename_i s hs
      rw [hnone] at hs
      exact absurd hs (by simp)
  | succ k ih =>
    intro i hi
    rw [emitFrom]
    split
    · rename_i hg
      have hlen : (lookupList m sig).length ≤ i := by
        rw [getSlot_eq_get?, List.get?_eq_none] at hg
        omega
      rw [List.drop_eq_nil_of_le hlen]
      rfl
    · rename_i s hg
      have hlt : i < (lookupList m sig).length := getSlot_some_lt hg
      have hs : (lookupList m sig).get ⟨i, hlt⟩ = s := by
        have hq := getSlot_eq_get? m sig i
        rw [hg, List.get?_eq_get hlt] at hq
        exact (Option.some.injEq _ _).mp hq.symm
      rw [ih (i + 1) (by omega), List.drop_eq_get_cons hlt, hs]
      simp

/-- The emit-with-exceptions loop, expressed directly on a slot list:
invoke slots left to right, stopping at the first that raises. -/
def runList {E : Type} (invk : Slot → Except E Unit) : List Slot → List Slot × Option E
  | [] => ([], none)
  | s :: rest =>
    match invk s with
    | .error e => ([s], some e)
    | .ok _ =>
      let r := runList invk rest
      (s :: r.1, r.2)

/-- The indexed emit loop with exceptions equals the left-to-right run of
the slot suffix starting at the loop index. -/
theorem emitRunFrom_eq {E : Type} (invk : Slot → Except E Unit) (m : SignalMap) (sig : Nat) :
    ∀ k i, (lookupList m sig).length - i ≤ k →
      emitRunFrom invk m sig i = runList invk ((lookupList m sig).drop i) := by
  intro k
  induction k with
  | zero =>
    intro i hi
    have hnone : getSlot m sig i = none := by
      rw [getSlot_eq_get?, List.get?_eq_none]
      omega
    rw [emitRunFrom]
    split
    · rw [List.drop_eq_nil_of_le (by omega)]
      rfl
    · rename_i s hs
      rw [hnone] at hs
      exact absurd hs (by simp)
  | succ k ih =>
    intro i hi
    rw [emitRunFrom]
    split
    · rename_i hg
      have hlen : (lookupList m sig).length ≤ i := by
        rw [getSlot_eq_get?, List.get?_eq_none] at hg
        omega
      rw [List.drop_eq_nil_of_le hlen]
      rfl
    · rename_i s hg
      have hlt : i < (lookupList m sig).length := getSlot_some_lt hg
      have hs : (lookupList m sig).get ⟨i, hlt⟩ = s := by
        have hq := getSlot_eq_get? m sig i
        rw [hg, List.get?_eq_get hlt] at hq
        exact (Option.some.injEq _ _).mp hq.symm
      rw [List.drop_eq_get_cons hlt, hs]
      cases hv : invk s with
      | error e => simp [runList, hv]
      | ok u => simp [runList, hv, ih (i + 1) (by omega)]

/-- If every slot before position `i` returns and the slot at `i` raises,
the left-to-right run invokes exactly the first `i + 1` slots and
propagates the exception. -/
theorem runList_error {E : Type} (invk : Slot → Except E Unit) (e : E) :
    ∀ (l : List Slot) (i : Nat) (si : Slot), l.get? i = some si →
      (∀ s ∈ l.take i, invk s = .ok ()) → invk si = .error e →
      runList invk l = (l.take (i + 1), some e) := by
  intro l
  induction l with
  | nil =>
    intro i si hget
    exact absurd hget (by simp)
  | cons s rest ih =>
    intro i si hget hok herr
    cases i with
    | zero =>
      have hsi : s = si := by simpa using hget
      subst hsi
      simp [runList, herr]
    | succ j =>
      have hs : invk s = .ok () := hok s (by simp)
      have hget' : rest.get? j = some si := by simpa using hget
      have hok' : ∀ x ∈ rest.take j, invk x = .ok () := by
        intro x hx
        exact hok x (by simp [List.take_cons, hx])
      simp [runList, hs, ih j si hget' hok' herr]

/-! ### Claim theorems: emit and remove -/

/-- The sequential emit trace is the signal's slot sequence, each slot
paired with the emitted arguments. -/
theorem emit_eq_map {A : Type} (m : SignalMap) (sig : Nat) (args : A) :
    emit m sig args = (lookupList m sig).map (fun s => (s, args)) := by
  have h := emitFrom_eq args m sig (lookupList m sig).length 0 (by omega)
  simpa [emit] using h

/-- C1. In sequential mode, one `emit(signal, args...)` on any registry
state invokes exactly the slots currently bound to that signal — each
once, in insertion order, with the emitted arguments — and no slot bound
to any other signal (the trace is drawn from that signal's sequence
alone): the invocation count equals the number of current bindings. -/
theorem emit_invokes_exactly_bound_slots {A : Type} (m : SignalMap) (sig : Nat) (args : A) :
    emit m sig args = (lookupList m sig).map (fun s => (s, args)) ∧
    (emit m sig args).length = (lookupList m sig).length := by
  refine ⟨emit_eq_map m sig args, ?_⟩
  rw [emit_eq_map m sig args, List.length_map]

/-- C2. `slotRemove(owner?, callback?)` scans every signal's sequence and
removes exactly the slots matched by the tri-modal predicate of the
specification table (callback-only, owner-only, both, or none when both
arguments are nil), preserving all other slots and their relative order
within each signal. -/
theorem slotRemove_meets_trimodal_spec (m : SignalMap) (o c : Nat) :
    slotRemove m o c = specRemove m o c := by
  unfold slotRemove specRemove
  rw [slotRemoveLoop_eq]
  simp only [slotMatches_matchMode]

/-- C5. In sequential mode, when the slots before position `i` return
normally and the slot at position `i` raises, `emit` invokes exactly the
first `i + 1` slots (the raiser included), the exception propagates out of
`emit` — which has no handler — and the registry is unchanged by the
failed emit. -/
theorem emit_exception_stops_dispatch {E : Type} (invk : Slot → Except E Unit)
    (m : SignalMap) (sig i : Nat) (si : Slot) (e : E)
    (hget : (lookupList m sig).get? i = some si)
    (hok : ∀ s ∈ (lookupList m sig).take i, invk s = .ok ())
    (herr : invk si = .error e) :
    emitRun invk m sig = ((lookupList m sig).take (i + 1), some e) ∧
    step m (.emitOp sig) = m := by
  constructor
  · rw [emitRun, emitRunFrom_eq invk m sig (lookupList m sig).length 0 (by omega)]
    simpa using runList_error invk e (lookupList m sig) i si hget hok herr
  · rfl

/-- Witness for C5: three function slots bound to signal 1; the second
invocation raises, so only the first two slots are invoked, the error
escapes, and the registry is untouched. -/
theorem emit_exception_stops_dispatch_witness :
    emitRun (fun s => if s.callback == 11 then Except.error 0 else Except.ok ())
        [(1, [Slot.function 10, Slot.function 11, Slot.function 12])] 1 =
      ([Slot.function 10, Slot.function 11], some 0) ∧
    step [(1, [Slot.function 10, Slot.function 11, Slot.function 12])] (Op.emitOp 1) =
      [(1, [Slot.function 10, Slot.function 11, Slot.function 12])] :=
  emit_exception_stops_dispatch
    (fun s => if s.callback == 11 then Except.error 0 else Except.ok ())
    [(1, [Slot.function 10, Slot.function 11, Slot.function 12])] 1 1
    (Slot.function 11) 0 rfl (fun s hs => by fin_cases hs; rfl) rfl

/-! ### The no-empty-entry invariant -/

/-- Storing never leaves an empty entry: `slotStore` either appends to an
existing sequence or creates a fresh singleton entry. -/
theorem slotStore_noEmpty : ∀ (m : SignalMap), noEmptyEntry m →
    ∀ (sig : Nat) (s : Slot), noEmptyEntry (slotStore m sig s)
  | [], _, sig, s => by
    intro e he
    simp only [slotStore, List.mem_singleton] at he
    subst he
    simp
  | (k, ss) :: rest, h, sig, s => by
    intro e he
    have hrest : noEmptyEntry rest := fun x hx => h x (List.mem_cons_of_mem _ hx)
    simp only [slotStore] at he
    split_ifs at he with h1 h2
    · rcases List.mem_cons.mp he with he | he
      · subst he; simp
      · exact h e he
    · rcases List.mem_cons.mp he with he | he
      · subst he; simp
      · exact h e (List.mem_cons_of_mem _ he)
    · rcases List.mem_cons.mp he with he | he
      · subst he
        exact h (k, ss) (by simp)
      · exact slotStore_noEmpty rest hrest sig s e he

/-- Removal erases every entry whose sequence became empty, so
its output never holds an empty entry. -/
theorem slotRemoveLoop_noEmpty (mode o c : Nat) : ∀ (m : SignalMap),
    noEmptyEntry (slotRemoveLoop mode o c m)
  | [] => by intro e he; simp [slotRemoveLoop] at he
  | (k, ss) :: rest => by
    intro e he
    simp only [slotRemoveLoop] at he
    split_ifs at he with h1
    · exact slotRemoveLoop_noEmpty mode o c rest e he
    · rcases List.mem_cons.mp he with he | he
      · subst he
        intro hc
        exact h1 (by simp [show removeMatching mode o c ss = [] from hc])
      · exact slotRemoveLoop_noEmpty mode o c rest e he

/-- Every operation of the API preserves the no-empty-entry invariant. -/
theorem applyOps_noEmpty : ∀ (ops : List Op) (m : SignalMap),
    noEmptyEntry m → noEmptyEntry (applyOps m ops)
  | [], _, h => h
  | op :: rest, m, h => by
    apply applyOps_noEmpty rest
    cases op with
    | bindMethodOp sig owner cb => exact slotStore_noEmpty m h sig _
    | bindFunctionOp sig cb => exact slotStore_noEmpty m h sig _
    | bindLambdaOp sig self cb => exact slotStore_noEmpty m h sig _
    | unbindMethodOp owner cb => exact slotRemoveLoop_noEmpty _ _ _ m
    | unbindFunctionOp cb => exact slotRemoveLoop_noEmpty _ _ _ m
    | unbindOwnerOp owner => exact slotRemoveLoop_noEmpty _ _ _ m
    | unbindAddrOp cb => exact slotRemoveLoop_noEmpty _ _ _ m
    | emitOp sig => exact h

/-- C4. After any sequence of bind, unbind, and emit calls starting from
the fresh (empty) registry, no signal identity maps to an empty slot
sequence: `slotRemove` collapses entries that become empty and
`slotStore` only creates an entry together with the slot it appends. -/
theorem reachable_no_empty_entry (ops : List Op) : noEmptyEntry (applyOps [] ops) :=
  applyOps_noEmpty ops [] (by intro e he; simp at he)

/-! ### Idempotence of removal -/

/-- Filtering a sequence twice with the same matcher equals filtering it
once. -/
theorem removeMatching_idem (mode o c : Nat) (ss : SlotList) :
    removeMatching mode o c (removeMatching mode o c ss) = removeMatching mode o c ss := by
  simp only [removeMatching_eq_filter, List.filter_filter]
  simp

/-- Running the removal loop twice with the same arguments equals running
it once. -/
theorem slotRemoveLoop_idem (mode o c : Nat) : ∀ (m : SignalMap),
    slotRemoveLoop mode o c (slotRemoveLoop mode o c m) = slotRemoveLoop mode o c m
  | [] => rfl
  | (k, ss) :: rest => by
    simp only [slotRemoveLoop]
    split_ifs with h1
    · exact slotRemoveLoop_idem mode o c rest
    · simp only [slotRemoveLoop, removeMatching_idem, if_neg h1]
      rw [slotRemoveLoop_idem mode o c rest]

/-- A sequence none of whose slots match is left untouched by the inner
erase loop. -/
theorem removeMatching_id_of_noMatch {mode o c : Nat} {ss : SlotList}
    (h : ∀ s ∈ ss, slotMatches mode o c s = false) :
    removeMatching mode o c ss = ss := by
  rw [removeMatching_eq_filter]
  exact List.filter_eq_self.mpr (fun s hs => by simp [h s hs])

/-- When no slot of the registry matches and no entry is empty, the
removal loop leaves the registry unchanged. -/
theorem slotRemoveLoop_id_of_noMatch {mode o c : Nat} : ∀ {m : SignalMap},
    noEmptyEntry m → (∀ e ∈ m, ∀ s ∈ e.2, slotMatches mode o c s = false) →
    slotRemoveLoop mode o c m = m
  | [], _, _ => rfl
  | (k, ss) :: rest, h, hm => by
    have hss : removeMatching mode o c ss = ss :=
      removeMatching_id_of_noMatch (fun s hs => hm (k, ss) (by simp) s hs)
    have hne : ¬ ss.isEmpty = true := by
      have := h (k, ss) (by simp)
      simpa [List.isEmpty_iff] using this
    simp only [slotRemoveLoop, hss, if_neg hne]
    rw [slotRemoveLoop_id_of_noMatch
      (fun x hx => h x (List.mem_cons_of_mem _ hx))
      (fun e he s hs => hm e (List.mem_cons_of_mem _ he) s hs)]

/-- C6. Unbinding is idempotent: for every registry and every
(owner, callback) argument pair of the unbind overloads, removing twice
equals removing once; and on a registry (with the registry invariant of
no empty entry) in which no slot matches the tri-modal predicate, the
removal is a no-op. -/
theorem unbind_idempotent_and_noop (m : SignalMap) (o c : Nat) :
    slotRemove (slotRemove m o c) o c = slotRemove m o c ∧
    (noEmptyEntry m →
      (∀ e ∈ m, ∀ s ∈ e.2, specMatches (optOfPtr o) (optOfPtr c) s = false) →
      slotRemove m o c = m) := by
  constructor
  · exact slotRemoveLoop_idem _ _ _ m
  · intro h hm
    exact slotRemoveLoop_id_of_noMatch h
      (fun e he s hs => by rw [slotMatches_matchMode]; exact hm e he s hs)

/-- Witness for C6: unbinding owner 2 from a registry holding only a free
function slot is a no-op, and doubly so. -/
theorem unbind_idempotent_and_noop_witness :
    slotRemove (slotRemove [(1, [Slot.function 5])] 2 0) 2 0 =
      slotRemove [(1, [Slot.function 5])] 2 0 ∧
    slotRemove [(1, [Slot.function 5])] 2 0 = [(1, [Slot.function 5])] :=
  ⟨(unbind_idempotent_and_noop [(1, [Slot.function 5])] 2 0).1,
   (unbind_idempotent_and_noop [(1, [Slot.function 5])] 2 0).2
      (by decide) (by decide)⟩

/-- C7. The indexed accessor: when the signal is present and the index in
range, `getSlot` returns the index-th slot of its sequence in insertion
order; when the signal is absent or the index out of range, it returns
nil. -/
theorem getSlot_indexed_access (m : SignalMap) (sig i : Nat) :
    (∀ ss, findSignal m sig = some ss →
      (∀ h : i < ss.length, getSlot m sig i = some (ss.get ⟨i, h⟩)) ∧
      (ss.length ≤ i → getSlot m sig i = none)) ∧
    (findSignal m sig = none → getSlot m sig i = none) := by
  constructor
  · intro ss hf
    constructor
    · intro h
      rw [getSlot_eq_get?]
      simp only [lookupList, hf, Option.getD_some]
      exact List.get?_eq_get h
    · intro h
      rw [getSlot_eq_get?]
      simp only [lookupList, hf, Option.getD_some]
      exact List.get?_eq_none.mpr h
  · intro hf
    rw [getSlot_eq_get?]
    simp [lookupList, hf]

/-- Witness for C7: a two-slot signal — in-range index, out-of-range
index, and absent signal. -/
theorem getSlot_indexed_access_witness :
    getSlot [(1, [Slot.function 5, Slot.function 6])] 1 1 = some (Slot.function 6) ∧
    getSlot [(1, [Slot.function 5, Slot.function 6])] 1 2 = none ∧
    getSlot [(1, [Slot.function 5, Slot.function 6])] 7 0 = none := by
  refine ⟨?_, ?_, ?_⟩
  · have h := ((getSlot_indexed_access [(1, [Slot.function 5, Slot.function 6])] 1 1).1
      [Slot.function 5, Slot.function 6] rfl).1 (by decide)
    simpa using h
  · exact ((getSlot_indexed_access [(1, [Slot.function 5, Slot.function 6])] 1 2).1
      [Slot.function 5, Slot.function 6] rfl).2 (by decide)
  · exact (getSlot_indexed_access [(1, [Slot.function 5, Slot.function 6])] 7 0).2 rfl

/-! ### Slot shape across the API -/

/-- Every slot found after a `slotStore` was either already stored or is
the slot just appended. -/
theorem mem_slotStore : ∀ (m : SignalMap) (sig : Nat) (s : Slot)
    (e : Nat × SlotList), e ∈ slotStore m sig s → ∀ x ∈ e.2,
    (∃ e0 ∈ m, x ∈ e0.2) ∨ x = s
  | [], sig, s, e, he => by
    intro x hx
    simp only [slotStore, List.mem_singleton] at he
    subst he
    simp only [List.mem_singleton] at hx
    exact Or.inr hx
  | (k, ss) :: rest, sig, s, e, he => by
    intro x hx
    simp only [slotStore] at he
    split_ifs at he with h1 h2
    · rcases List.mem_cons.mp he with he | he
      · subst he
        simp only [List.mem_singleton] at hx
        exact Or.inr hx
      · exact Or.inl ⟨e, he, hx⟩
    · rcases List.mem_cons.mp he with he | he
      · subst he
        rcases List.mem_append.mp hx with hx | hx
        · exact Or.inl ⟨(k, ss), by simp, hx⟩
        · simp only [List.mem_singleton] at hx
          exact Or.inr hx
      · exact Or.inl ⟨e, List.mem_cons_of_mem _ he, hx⟩
    · rcases List.mem_cons.mp he with he | he
      · subst he
        exact Or.inl ⟨(k, ss), by simp, hx⟩
      · rcases mem_slotStore rest sig s e he x hx with ⟨e0, he0, hx0⟩ | hx0
        · exact Or.inl ⟨e0, List.mem_cons_of_mem _ he0, hx0⟩
        · exact Or.inr hx0

/-- The inner erase loop only keeps slots of the original sequence. -/
theorem mem_removeMatching {mode o c : Nat} {ss : SlotList} {x : Slot}
    (hx : x ∈ removeMatching mode o c ss) : x ∈ ss := by
  rw [removeMatching_eq_filter] at hx
  exact (List.mem_filter.mp hx).1

/-- Every slot found after the removal loop was already stored before. -/
theorem mem_slotRemoveLoop : ∀ {mode o c : Nat} (m : SignalMap)
    (e : Nat × SlotList), e ∈ slotRemoveLoop mode o c m → ∀ x ∈ e.2,
    ∃ e0 ∈ m, x ∈ e0.2
  | _, _, _, [], e, he => by simp [slotRemoveLoop] at he
  | mode, o, c, (k, ss) :: rest, e, he => by
    intro x hx
    simp only [slotRemoveLoop] at he
    split_ifs at he with h1
    · obtain ⟨e0, he0, hx0⟩ := mem_slotRemoveLoop rest e he x hx
      exact ⟨e0, List.mem_cons_of_mem _ he0, hx0⟩
    · rcases List.mem_cons.mp he with he | he
      · subst he
        exact ⟨(k, ss), by simp, mem_removeMatching hx⟩
      · obtain ⟨e0, he0, hx0⟩ := mem_slotRemoveLoop rest e he x hx
        exact ⟨e0, List.mem_cons_of_mem _ he0, hx0⟩

/-- Counterexample to C8 as stated: the method-bind overload also accepts
a null owner pointer, and then stores a method slot whose owner identity
is nil. -/
theorem bindMethod_null_owner_counterexample :
    Slot.method 0 5 ∈ lookupList (step [] (Op.bindMethodOp 7 0 5)) 7 ∧
    (Slot.method 0 5).isMethod = true ∧
    (Slot.method 0 5).object = 0 := by decide

/-- One API call preserves the owner-identity shape of all stored slots,
provided a method bind carries a non-null owner pointer. -/
theorem step_preserves_shape {m : SignalMap} {op : Op}
    (h : ∀ e ∈ m, ∀ s ∈ e.2, slotShapeOk s) (hop : opOwnerNonNil op) :
    ∀ e ∈ step m op, ∀ s ∈ e.2, slotShapeOk s := by
  cases op with
  | bindMethodOp sig owner cb =>
    intro e he x hx
    rcases mem_slotStore m sig _ e he x hx with ⟨e0, he0, hx0⟩ | hx0
    · exact h e0 he0 x hx0
    · subst hx0
      exact ⟨fun _ => hop, fun hf => by simp [Slot.isFunction] at hf⟩
  | bindFunctionOp sig cb =>
    intro e he x hx
    rcases mem_slotStore m sig _ e he x hx with ⟨e0, he0, hx0⟩ | hx0
    · exact h e0 he0 x hx0
    · subst hx0
      exact ⟨fun hm => by simp [Slot.isMethod] at hm, fun _ => rfl⟩
  | bindLambdaOp sig self cb =>
    intro e he x hx
    rcases mem_slotStore m sig _ e he x hx with ⟨e0, he0, hx0⟩ | hx0
    · exact h e0 he0 x hx0
    · subst hx0
      exact ⟨fun hm => by simp [Slot.isMethod] at hm,
             fun hf => by simp [Slot.isFunction] at hf⟩
  | unbindMethodOp owner cb =>
    intro e he x hx
    obtain ⟨e0, he0, hx0⟩ := mem_slotRemoveLoop m e he x hx
    exact h e0 he0 x hx0
  | unbindFunctionOp cb =>
    intro e he x hx
    obtain ⟨e0, he0, hx0⟩ := mem_slotRemoveLoop m e he x hx
    exact h e0 he0 x hx0
  | unbindOwnerOp owner =>
    intro e he x hx
    obtain ⟨e0, he0, hx0⟩ := mem_slotRemoveLoop m e he x hx
    exact h e0 he0 x hx0
  | unbindAddrOp cb =>
    intro e he x hx
    obtain ⟨e0, he0, hx0⟩ := mem_slotRemoveLoop m e he x hx
    exact h e0 he0 x hx0
  | emitOp sig => exact h

/-- The owner-identity shape invariant propagates over any call
sequence whose method binds all carry a non-null owner pointer. -/
theorem applyOps_shape : ∀ (ops : List Op) (m : SignalMap),
    (∀ e ∈ m, ∀ s ∈ e.2, slotShapeOk s) → (∀ op ∈ ops, opOwnerNonNil op) →
    ∀ e ∈ applyOps m ops, ∀ s ∈ e.2, slotShapeOk s
  | [], _, h, _ => h
  | op :: rest, m, h, hops => by
    apply applyOps_shape rest
    · exact step_preserves_shape h (hops op (by simp))
    · intro op0 hop0
      exact hops op0 (List.mem_cons_of_mem _ hop0)

/-- C8 (amended). After any call sequence from the fresh registry in
which every method bind passes a non-null owner pointer, every stored
method slot has a non-nil owner identity and every stored function slot
a nil one. (As stated the claim fails: the method-bind overload also
accepts a null owner pointer, see the counterexample.) -/
theorem slots_shape_with_nonnull_owners (ops : List Op)
    (h : ∀ op ∈ ops, opOwnerNonNil op) :
    ∀ e ∈ applyOps [] ops, ∀ s ∈ e.2, slotShapeOk s :=
  applyOps_shape ops [] (by intro e he; simp at he) h

/-- Witness for the amended C8: a method bind with owner 3 and a function
bind, both on signal 7. -/
theorem slots_shape_with_nonnull_owners_witness :
    slotShapeOk (Slot.method 3 5) ∧ slotShapeOk (Slot.function 9) :=
  ⟨slots_shape_with_nonnull_owners [Op.bindMethodOp 7 3 5, Op.bindFunctionOp 7 9]
      (by decide) (7, [Slot.method 3 5, Slot.function 9]) (by decide)
      (Slot.method 3 5) (by decide),
   slots_shape_with_nonnull_owners [Op.bindMethodOp 7 3 5, Op.bindFunctionOp 7 9]
      (by decide) (7, [Slot.method 3 5, Slot.function 9]) (by decide)
      (Slot.function 9) (by decide)⟩

/-- C9. In sequential mode, an emit whose slots do not call back into
bind or unbind leaves the registry exactly unchanged — same entries, same
slots, same order — also when the emitted signal has no bindings; the
trace is then empty. -/
theorem emit_frame_registry_unchanged {A : Type} (m : SignalMap) (sig : Nat) (args : A) :
    step m (.emitOp sig) = m ∧
    emit m sig args = (lookupList m sig).map (fun s => (s, args)) ∧
    (findSignal m sig = none → emit m sig args = []) := by
  refine ⟨rfl, emit_eq_map m sig args, fun hf => ?_⟩
  rw [emit_eq_map m sig args]
  simp [lookupList, hf]

/-- Witness for C9: emitting unbound signal 9 leaves the one-entry
registry unchanged and invokes nothing. -/
theorem emit_frame_registry_unchanged_witness :
    step [(1, [Slot.function 4])] (Op.emitOp 9) = [(1, [Slot.function 4])] ∧
    emit [(1, [Slot.function 4])] 9 0 = ([] : List (Slot × Nat)) :=
  ⟨(emit_frame_registry_unchanged [(1, [Slot.function 4])] 9 (0 : Nat)).1,
   (emit_frame_registry_unchanged [(1, [Slot.function 4])] 9 (0 : Nat)).2.2 rfl⟩

/-! ### Owner-only unbind and function slots -/

/-- With a non-null owner and a null callback, `slotRemove` runs in mode
2 (owner-only matching). -/
theorem matchMode_owner {p : Nat} (hp : p ≠ 0) : matchMode p 0 = 2 := by
  simp [matchMode, hp]

/-- Owner-only removal with a non-null owner keeps every function slot of
a sequence: a function slot's owner identity is nil and never equals the
given owner. -/
theorem removeMatching_owner_keeps_functions {p : Nat} (hp : p ≠ 0) :
    ∀ (ss : SlotList),
      (removeMatching 2 p 0 ss).filter Slot.isFunction = ss.filter Slot.isFunction
  | [] => rfl
  | s :: rest => by
    have ih := removeMatching_owner_keeps_functions hp rest
    cases s with
    | function c =>
      have hm : slotMatches 2 p 0 (Slot.function c) = false := by
        simp only [slotMatches, Slot.object, beq_eq_false_iff_ne]
        exact Ne.symm hp
      simp [removeMatching, hm, List.filter_cons, Slot.isFunction, ih]
    | method o c =>
      by_cases hm : slotMatches 2 p 0 (Slot.method o c) = true
      · simp [removeMatching, hm, List.filter_cons, Slot.isFunction, ih]
      · simp only [removeMatching, if_neg hm]
        simp [List.filter_cons, Slot.isFunction, ih]
    | lambda a c =>
      by_cases hm : slotMatches 2 p 0 (Slot.lambda a c) = true
      · simp [removeMatching, hm, List.filter_cons, Slot.isFunction, ih]
      · simp only [removeMatching, if_neg hm]
        simp [List.filter_cons, Slot.isFunction, ih]

/-- A signal absent from the key list is absent from the map. -/
theorem findSignal_eq_none_of_not_mem_keys : ∀ (m : SignalMap) (sig : Nat),
    sig ∉ m.map Prod.fst → findSignal m sig = none
  | [], _, _ => rfl
  | (k, ss) :: rest, sig, h => by
    simp only [List.map_cons, List.mem_cons] at h
    push_neg at h
    simp only [findSignal, if_neg h.1]
    exact findSignal_eq_none_of_not_mem_keys rest sig h.2

/-- The removal loop never creates a signal entry: a signal absent before
stays absent after. -/
theorem findSignal_slotRemoveLoop_none {mode o c : Nat} : ∀ (m : SignalMap) (sig : Nat),
    findSignal m sig = none → findSignal (slotRemoveLoop mode o c m) sig = none
  | [], _, _ => rfl
  | (k, ss) :: rest, sig, h => by
    simp only [findSignal] at h
    by_cases hk : sig = k
    · simp [hk] at h
    · rw [if_neg hk] at h
      simp only [slotRemoveLoop]
      split_ifs with h1
      · exact findSignal_slotRemoveLoop_none rest sig h
      · simp only [findSignal, if_neg hk]
        exact findSignal_slotRemoveLoop_none rest sig h

/-- Owner-only removal keeps, per signal, exactly the function slots that
were there. -/
theorem slotRemoveLoop_owner_keeps_functions {p : Nat} (hp : p ≠ 0) :
    ∀ (m : SignalMap), keysNodup m → ∀ sig,
      (lookupList (slotRemoveLoop 2 p 0 m) sig).filter Slot.isFunction =
        (lookupList m sig).filter Slot.isFunction
  | [], _, sig => rfl
  | (k, ss) :: rest, hn, sig => by
    have hn0 : List.Nodup (k :: rest.map Prod.fst) := by
      simpa [keysNodup] using hn
    obtain ⟨hk, hn1⟩ := List.nodup_cons.mp hn0
    have hn' : keysNodup rest := hn1
    simp only [slotRemoveLoop]
    split_ifs with h1
    · have hkept : removeMatching 2 p 0 ss = [] := by
        simpa [List.isEmpty_iff] using h1
      by_cases hsig : sig = k
      · subst hsig
        have habsent : findSignal (slotRemoveLoop 2 p 0 rest) sig = none :=
          findSignal_slotRemoveLoop_none rest sig
            (findSignal_eq_none_of_not_mem_keys rest sig hk)
        have hL : lookupList (slotRemoveLoop 2 p 0 rest) sig = [] := by
          rw [lookupList, habsent]
          rfl
        have hR : lookupList ((sig, ss) :: rest) sig = ss := by
          simp [lookupList, findSignal]
        rw [hL, hR, ← removeMatching_owner_keeps_functions hp ss, hkept]
      · have hR : lookupList ((k, ss) :: rest) sig = lookupList rest sig := by
          simp [lookupList, findSignal, hsig]
        rw [hR]
        exact slotRemoveLoop_owner_keeps_functions hp rest hn' sig
    · by_cases hsig : sig = k
      · subst hsig
        have hL : lookupList ((sig, removeMatching 2 p 0 ss) :: slotRemoveLoop 2 p 0 rest) sig =
            removeMatching 2 p 0 ss := by
          simp [lookupList, findSignal]
        have hR : lookupList ((sig, ss) :: rest) sig = ss := by
          simp [lookupList, findSignal]
        rw [hL, hR, removeMatching_owner_keeps_functions hp ss]
      · have hL : lookupList ((k, removeMatching 2 p 0 ss) :: slotRemoveLoop 2 p 0 rest) sig =
            lookupList (slotRemoveLoop 2 p 0 rest) sig := by
          simp [lookupList, findSignal, hsig]
        have hR : lookupList ((k, ss) :: rest) sig = lookupList rest sig := by
          simp [lookupList, findSignal, hsig]
        rw [hL, hR]
        exact slotRemoveLoop_owner_keeps_functions hp rest hn' sig

/-- C10. For every non-null owner pointer, the owner-only unbind overload
(`unbind(T* object)`, which calls `slotRemove(object, nullptr)`) never
removes a function slot: per signal, exactly the function slots that were
bound are still bound. -/
theorem unbind_by_owner_spares_function_slots (m : SignalMap) (p : Nat)
    (hp : p ≠ 0) (hn : keysNodup m) (sig : Nat) :
    (lookupList (step m (Op.unbindOwnerOp p)) sig).filter Slot.isFunction =
      (lookupList m sig).filter Slot.isFunction := by
  simp only [step, slotRemove, matchMode_owner hp]
  exact slotRemoveLoop_owner_keeps_functions hp m hn sig

/-- Witness for C10: unbinding owner 2 removes its method slot but leaves
the function slot of the same signal in place. -/
theorem unbind_by_owner_spares_function_slots_witness :
    (lookupList (step [(1, [Slot.function 5, Slot.method 2 6])] (Op.unbindOwnerOp 2)) 1).filter
        Slot.isFunction =
      (lookupList [(1, [Slot.function 5, Slot.method 2 6])] 1).filter Slot.isFunction :=
  unbind_by_owner_spares_function_slots [(1, [Slot.function 5, Slot.method 2 6])] 2
    (by decide) (by decide) 1

/-! ### Signal and method identity as a truncated bit pattern -/

/-- C3 (bug exhibit). The identity word is `void*`-sized, and the union
pun keeps only the low `void*`-width bits of the pointer-to-member. On a
platform with 64-bit `void*` and 128-bit pointers-to-member (the common
two-word member-pointer representation), the build-time guard still
passes — it only compares a plain function pointer against `void*` — yet
the opaque word is narrower than the pointer-to-member and two distinct
member-pointer bit patterns collapse to the same identity. -/
theorem member_pointer_identity_truncated :
    staticAssertFnPtrFits 64 64 ∧
    1 + 2 ^ 64 < 2 ^ 128 ∧
    (1 : Nat) ≠ 1 + 2 ^ 64 ∧
    toVoidPtrWord 64 1 = toVoidPtrWord 64 (1 + 2 ^ 64) ∧
    ¬ 128 ≤ 64 := by
  refine ⟨by decide, by norm_num, by norm_num, ?_, by norm_num⟩
  unfold toVoidPtrWord
  norm_num

end ObjectSlots
